import Mathlib

/-!
Verification development for the BGCP (Bayesian Gaussian CP decomposition)
imputer (imputer/BGCP.ipynb).

The numpy code is shallowly embedded over exact rationals.  Arrays are
total functions from natural-number indices to rationals, with the array
shapes carried as explicit parameters (reads outside the intended shape
are never relevant to any theorem: all sums range over the declared
shape).  Random draws (numpy mvnrnd, scipy wishart rvs, numpy gamma) are
modelled by an explicit oracle record `Draws`: every sampler receives the
oracle and applies it to the distribution parameters it computes, so all
theorems about parameter computations and sequencing are exact statements
about the code's data flow, for any fixed underlying draws.
-/

/-- A 3-D array of reals (zero sentinel = missing), indexed (i, j, t). -/
def Ten : Type := ℕ → ℕ → ℕ → ℚ

/-- A 2-D array of reals. -/
def Mat : Type := ℕ → ℕ → ℚ

/-- A 1-D array of reals. -/
def Vec : Type := ℕ → ℚ

instance : Zero Ten := ⟨fun _ _ _ => 0⟩
instance : Zero Mat := ⟨fun _ _ => 0⟩

/-- Oracle for the random draws used by the samplers.  `gauss` models
`numpy.random.multivariate_normal (mean, cov)`, `wish` models
`scipy.stats.wishart (df, scale).rvs ()`, and `gamma` models
`numpy.random.gamma (shape, scale)`. -/
structure Draws where
  gauss : Vec → Mat → Vec
  wish : ℕ → Mat → Mat
  gamma : ℚ → ℚ → ℚ

/-- Source `kr_prod (a, b)`:
`np.einsum ('ir, jr -> ijr', a, b).reshape (a.shape[0] * b.shape[0], -1)`.
Row `q` of the result (C-order flattening, so `q = i * bRows + j`) is the
elementwise product of row `i` of `a` and row `j` of `b`.  The row count
of `b` (read from `b.shape[0]` in numpy) is passed explicitly. -/
def kr_prod (a b : Mat) (bRows : ℕ) : Mat :=
  fun q s => a (q / bRows) s * b (q % bRows) s

/-- Source `cp_combine (var)`:
`np.einsum ('is, js, ts -> ijt', var[0], var[1], var[2])`. -/
def cp_combine (r : ℕ) (U V X : Mat) : Ten :=
  fun i j t => ∑ s ∈ Finset.range r, U i s * V j s * X t s

/-- Source `ten2mat (tensor, mode)`:
`np.reshape (np.moveaxis (tensor, mode, 0), (tensor.shape[mode], -1), order = 'F')`
instantiated at a 3-D tensor of shape `(m, n, f)`.  Fortran order means the
first remaining axis varies fastest, so for mode 0 column `q` holds the
entry at `(j, t) = (q % n, q / n)`, for mode 1 at `(i, t) = (q % m, q / m)`,
and for mode 2 at `(i, j) = (q % m, q / m)`. -/
def ten2mat (m n : ℕ) (T : Ten) (k : ℕ) : Mat :=
  match k with
  | 0 => fun i q => T i (q % n) (q / n)
  | 1 => fun j q => T (q % m) j (q / m)
  | 2 => fun t q => T (q % m) (q / m) t
  | _ => fun _ _ => 0

/-- Modelled from the spec: re-folding a mode-k unfolded matrix back into a
3-D tensor with the same element ordering convention as `ten2mat` (mode k
as the leading axis, the remaining axes flattened in Fortran order).  The
repository has no folding function; this is the inverse index map of
`ten2mat`, written from the spec's round-trip sentence. -/
def mat2ten (m n : ℕ) (M : Mat) (k : ℕ) : Ten :=
  match k with
  | 0 => fun i j t => M i (j + n * t)
  | 1 => fun i j t => M j (i + m * t)
  | 2 => fun i j t => M t (i + m * j)
  | _ => fun _ _ _ => 0

/-- Source `cov_mat (mat)`: with `mat_bar = np.mean (mat, axis = 0)`, the
accumulation loop `for i in range (dim1): new_mat += np.einsum ('i, j -> ij',
mat[i, :] - mat_bar, mat[i, :] - mat_bar)` starting from zeros, i.e. the
unnormalized row scatter of the `dim1` rows. -/
def cov_mat (dim1 : ℕ) (mat : Mat) : Mat :=
  fun a b =>
    ∑ i ∈ Finset.range dim1,
      (mat i a - (∑ i2 ∈ Finset.range dim1, mat i2 a) / dim1) *
      (mat i b - (∑ i2 ∈ Finset.range dim1, mat i2 b) / dim1)

/-- The symmetrization `(M + M.T) / 2` applied before every inversion. -/
def symPart (A : Mat) : Mat := fun a b => (A a b + A b a) / 2

/-- The leading `r × r` block of a shapeless matrix, as a Mathlib matrix. -/
def toSq (r : ℕ) (A : Mat) : Matrix (Fin r) (Fin r) ℚ :=
  Matrix.of fun i j => A i.val j.val

/-- Model of `numpy.linalg.inv` on an `r × r` array: the inverse of the
leading `r × r` block (computed as `det⁻¹ • adjugate`, which agrees with
the matrix inverse whenever the block is invertible), zero outside it. -/
def matInv (r : ℕ) (A : Mat) : Mat :=
  fun i j =>
    if h : i < r ∧ j < r then
      ((toSq r A).det⁻¹ • (toSq r A).adjugate) ⟨i, h.1⟩ ⟨j, h.2⟩
    else 0

/-- The all-zero vector (`np.zeros (rank)`). -/
def zeroVec : Vec := fun _ => 0

/-- `np.eye (r)`. -/
def eyeQ (r : ℕ) : Mat := fun a b => if a = b ∧ a < r then 1 else 0

/-- The dimension of mode `k` of an `(m, n, f)` tensor
(`factor[k].shape[0]` for consistently shaped inputs). -/
def dimOf (m n f k : ℕ) : ℕ :=
  match k with
  | 0 => m
  | 1 => n
  | 2 => f
  | _ => 0

/-- Source `sample_factor`, dense strategy (`vargin == 0`).  For mode `k`,
`var1` is the transposed Khatri-Rao product of the other two factor
matrices (`kr_prod (factor[2], factor[1])` for `k = 0`,
`kr_prod (factor[2], factor[0])` for `k = 1`,
`kr_prod (factor[1], factor[0])` for `k = 2`), `var2 = kr_prod (var1, var1)`,
`var3[:, :, i] = tau * (var2 @ ten2mat (binary, k).T)[:, i]` (reshaped
`rank × rank`) plus the stacked `var_Lambda_hyper`, and
`var4[:, i] = tau * (var1 @ ten2mat (sparse, k).T)[:, i] + var_Lambda_hyper @
var_mu_hyper`.  Row `i` is then drawn as
`mvnrnd (inv_var_Lambda @ var4[:, i], inv_var_Lambda)` with
`inv_var_Lambda = inv ((var_Lambda + var_Lambda.T) / 2)`. -/
def sample_factor_dense (m n f r : ℕ) (Y B : Ten) (tau : ℚ) (U V X : Mat)
    (mu_hyper : Vec) (Lambda_hyper : Mat) (k : ℕ) (D : Draws) : Mat :=
  fun i =>
    let var1 : Mat :=
      match k with
      | 0 => fun s q => kr_prod X V n q s
      | 1 => fun s q => kr_prod X U m q s
      | 2 => fun s q => kr_prod V U m q s
      | _ => fun _ _ => 0
    let nq : ℕ :=
      match k with
      | 0 => n * f
      | 1 => m * f
      | 2 => m * n
      | _ => 0
    let var2 : Mat := kr_prod var1 var1 r
    let var_Lambda : Mat := fun a b =>
      tau * (∑ q ∈ Finset.range nq, var2 (a * r + b) q * ten2mat m n B k i q) +
        Lambda_hyper a b
    let var4 : Vec := fun a =>
      tau * (∑ q ∈ Finset.range nq, var1 a q * ten2mat m n Y k i q) +
        ∑ s ∈ Finset.range r, Lambda_hyper a s * mu_hyper s
    let inv_var_Lambda : Mat := matInv r (symPart var_Lambda)
    D.gauss (fun a => ∑ b ∈ Finset.range r, inv_var_Lambda a b * var4 b)
      inv_var_Lambda

/-- Source `sample_factor`, sparse per-row strategy (`vargin == 1`).  The
source loops `for i in range (dim)` and inside the loop computes
`pos0 = np.where (binary_tensor[k, :, :] != 0)` (mode 0; analogously
`[:, k, :]` for mode 1, `[:, :, k]` for mode 2) and accumulates `temp1`,
`temp2` over `pos0`.  The tensor slice is indexed by the mode number `k`,
not by the row index `i`, so none of `pos0`, `temp1`, `temp2`, and hence
none of the per-row posterior parameters, depend on `i`; the loop body is
hoisted here and the same drawn row is assigned to every row `i`. -/
def sample_factor_sparse (m n f r : ℕ) (Y B : Ten) (tau : ℚ) (U V X : Mat)
    (mu_hyper : Vec) (Lambda_hyper : Mat) (k : ℕ) (D : Draws) : Mat :=
  let var_mu0 : Vec := fun a => ∑ s ∈ Finset.range r, Lambda_hyper a s * mu_hyper s
  match k with
  | 0 =>
    let pos0 := (Finset.range n ×ˢ Finset.range f).filter fun p => B 0 p.1 p.2 ≠ 0
    let temp1 : Vec := fun a => ∑ p ∈ pos0, V p.1 a * X p.2 a * Y 0 p.1 p.2
    let temp2 : Mat := fun a b =>
      ∑ p ∈ pos0, V p.1 a * X p.2 a * (V p.1 b * X p.2 b)
    let var_Lambda : Mat := fun a b => tau * temp2 a b + Lambda_hyper a b
    let inv_var_Lambda : Mat := matInv r (symPart var_Lambda)
    let var_mu : Vec := fun a =>
      ∑ b ∈ Finset.range r, inv_var_Lambda a b * (tau * temp1 b + var_mu0 b)
    fun _ => D.gauss var_mu inv_var_Lambda
  | 1 =>
    let pos0 := (Finset.range m ×ˢ Finset.range f).filter fun p => B p.1 1 p.2 ≠ 0
    let temp1 : Vec := fun a => ∑ p ∈ pos0, U p.1 a * X p.2 a * Y p.1 1 p.2
    let temp2 : Mat := fun a b =>
      ∑ p ∈ pos0, U p.1 a * X p.2 a * (U p.1 b * X p.2 b)
    let var_Lambda : Mat := fun a b => tau * temp2 a b + Lambda_hyper a b
    let inv_var_Lambda : Mat := matInv r (symPart var_Lambda)
    let var_mu : Vec := fun a =>
      ∑ b ∈ Finset.range r, inv_var_Lambda a b * (tau * temp1 b + var_mu0 b)
    fun _ => D.gauss var_mu inv_var_Lambda
  | 2 =>
    let pos0 := (Finset.range m ×ˢ Finset.range n).filter fun p => B p.1 p.2 2 ≠ 0
    let temp1 : Vec := fun a => ∑ p ∈ pos0, U p.1 a * V p.2 a * Y p.1 p.2 2
    let temp2 : Mat := fun a b =>
      ∑ p ∈ pos0, U p.1 a * V p.2 a * (U p.1 b * V p.2 b)
    let var_Lambda : Mat := fun a b => tau * temp2 a b + Lambda_hyper a b
    let inv_var_Lambda : Mat := matInv r (symPart var_Lambda)
    let var_mu : Vec := fun a =>
      ∑ b ∈ Finset.range r, inv_var_Lambda a b * (tau * temp1 b + var_mu0 b)
    fun _ => D.gauss var_mu inv_var_Lambda
  | _ => fun _ _ => 0

/-- Source `sample_factor (sparse_tensor, binary_tensor, tau, factor,
var_mu_hyper, var_Lambda_hyper, k, vargin = 0)`: three successive
threshold checks (`dim * rank ** 2 > 1e+8`,
`np.prod (sparse_tensor.shape) / dim * rank ** 2 > 1e+8`, and the first
check repeated) may force `vargin = 1`, then the dense or sparse strategy
runs. -/
def sample_factor (m n f r : ℕ) (Y B : Ten) (tau : ℚ) (U V X : Mat)
    (mu_hyper : Vec) (Lambda_hyper : Mat) (k vargin : ℕ) (D : Draws) : Mat :=
  let dim := dimOf m n f k
  let v1 := if (dim * r ^ 2 : ℚ) > 100000000 then 1 else vargin
  let v2 := if ((m : ℚ) * n * f) / (dim : ℚ) * (r : ℚ) ^ 2 > 100000000 then 1 else v1
  let v3 := if (dim * r ^ 2 : ℚ) > 100000000 then 1 else v2
  if v3 = 0 then
    sample_factor_dense m n f r Y B tau U V X mu_hyper Lambda_hyper k D
  else
    sample_factor_sparse m n f r Y B tau U V X mu_hyper Lambda_hyper k D

/-- Source `sample_precision_tau (sparse_tensor, tensor_hat, pos_train,
alpha, beta)`: `var_alpha = alpha + 0.5 * sparse_tensor[pos_train].shape[0]`,
`var_beta = beta + 0.5 * np.sum ((sparse_tensor - tensor_hat)[pos_train] ** 2)`,
returning `np.random.gamma (var_alpha, 1 / var_beta)` (numpy's gamma takes
shape and scale). -/
def sample_precision_tau (Y hat : Ten) (pos : Finset (ℕ × ℕ × ℕ))
    (alpha beta : ℚ) (D : Draws) : ℚ :=
  let var_alpha := alpha + (1 / 2) * (pos.card : ℚ)
  let var_beta :=
    beta + (1 / 2) * ∑ p ∈ pos, (Y p.1 p.2.1 p.2.2 - hat p.1 p.2.1 p.2.2) ^ 2
  D.gamma var_alpha (1 / var_beta)

/-- Source `sample_hyperparameter (factor_k, mu0, beta0, W0, nu0)` with
`dim = factor_k.shape[0]` passed explicitly:
`mat_bar = np.mean (factor_k, axis = 0)`,
`var_mu_hyper = (dim * mat_bar + beta0 * mu0) / (dim + beta0)`,
`var_W_hyper = inv (inv (W0) + cov_mat (factor_k) + dim * beta0 / (dim + beta0)
* np.outer (mat_bar - mu0, mat_bar - mu0))`,
`var_Lambda_hyper = wishart (df = dim + nu0, scale = var_W_hyper).rvs ()`,
then `var_mu_hyper = mvnrnd (var_mu_hyper, inv ((dim + beta0) *
var_Lambda_hyper))`; returns the pair. -/
def sample_hyperparameter (dim r : ℕ) (factor_k : Mat) (mu0 : Vec)
    (beta0 : ℚ) (W0 : Mat) (nu0 : ℕ) (D : Draws) : Vec × Mat :=
  let mat_bar : Vec := fun a => (∑ i ∈ Finset.range dim, factor_k i a) / dim
  let var_mu_bar : Vec := fun a =>
    ((dim : ℚ) * mat_bar a + beta0 * mu0 a) / ((dim : ℚ) + beta0)
  let var_W_hyper : Mat := matInv r (fun a b =>
    matInv r W0 a b + cov_mat dim factor_k a b +
      (dim : ℚ) * beta0 / ((dim : ℚ) + beta0) *
        ((mat_bar a - mu0 a) * (mat_bar b - mu0 b)))
  let var_Lambda_hyper := D.wish (dim + nu0) var_W_hyper
  let var_mu_hyper := D.gauss var_mu_bar
    (matInv r (fun a b => ((dim : ℚ) + beta0) * var_Lambda_hyper a b))
  (var_mu_hyper, var_Lambda_hyper)

/-- Source `compute_mape (var, var_hat)`:
`np.sum (np.abs (var - var_hat) / var) / var.shape[0]`, the division by the
ground-truth entries applied with no zero check. -/
def compute_mape (N : ℕ) (v vh : Vec) : ℚ :=
  (∑ i ∈ Finset.range N, |v i - vh i| / v i) / N

/-- The index grid of an `(m, n, f)` array. -/
def grid3 (m n f : ℕ) : Finset (ℕ × ℕ × ℕ) :=
  Finset.range m ×ˢ Finset.range n ×ˢ Finset.range f

/-- Source `pos_train = np.where (sparse_tensor != 0)` in `BGCP`. -/
def posTrain (m n f : ℕ) (sparse : Ten) : Finset (ℕ × ℕ × ℕ) :=
  (grid3 m n f).filter fun p => sparse p.1 p.2.1 p.2.2 ≠ 0

/-- Source `pos_test = np.where ((dense_tensor != 0) & (sparse_tensor == 0))`
in `BGCP`. -/
def posTest (m n f : ℕ) (dense sparse : Ten) : Finset (ℕ × ℕ × ℕ) :=
  (grid3 m n f).filter fun p =>
    dense p.1 p.2.1 p.2.2 ≠ 0 ∧ sparse p.1 p.2.1 p.2.2 = 0

/-- Source `binary_tensor = np.zeros (dim); binary_tensor[pos_train] = 1`. -/
def binaryOf (m n f : ℕ) (sparse : Ten) : Ten :=
  fun i j t => if (i, j, t) ∈ posTrain m n f sparse then 1 else 0

/-- The mutable state of the `BGCP` loop: the three factor matrices, the
precision `tau`, and the two accumulators `factor_plus`,
`tensor_hat_plus`. -/
structure BGCPState where
  F : Fin 3 → Mat
  tau : ℚ
  factor_plus : Fin 3 → Mat
  tensor_hat_plus : Ten

/-- One iteration of the inner loop `for k in range (len (dim))` of `BGCP`:
`var_mu_hyper, var_Lambda_hyper = sample_hyperparameter (factor[k], mu0,
beta0, W0, nu0)` followed by the in-place update
`factor[k] = sample_factor (sparse_tensor, binary_tensor, tau, factor,
var_mu_hyper, var_Lambda_hyper, k)`, with `BGCP`'s constants `mu0 = 0`,
`beta0 = 1`, `W0 = np.eye (rank)`, `nu0 = rank` and default `vargin = 0`. -/
def bgcpModeStep (m n f r : ℕ) (Y B : Ten) (tau : ℚ) (D : Draws)
    (F : Fin 3 → Mat) (k : Fin 3) : Fin 3 → Mat :=
  let hp := sample_hyperparameter (dimOf m n f k.val) r (F k) zeroVec 1 (eyeQ r) r D
  Function.update F k
    (sample_factor m n f r Y B tau (F 0) (F 1) (F 2) hp.1 hp.2 k.val 0 D)

/-- One full sweep of `BGCP`: the three mode updates in loop order, then
`tensor_hat = cp_combine (factor)` and
`tau = sample_precision_tau (sparse_tensor, tensor_hat, pos_train, alpha,
beta)` with `alpha = beta = 1e-6`.  Returns the updated factor list, the
reconstruction, and the new `tau`. -/
def bgcpSweep (m n f r : ℕ) (Y B : Ten) (pos : Finset (ℕ × ℕ × ℕ))
    (D : Draws) (F : Fin 3 → Mat) (tau : ℚ) : (Fin 3 → Mat) × Ten × ℚ :=
  let F2 := List.foldl (bgcpModeStep m n f r Y B tau D) F [0, 1, 2]
  let hat := cp_combine r (F2 0) (F2 1) (F2 2)
  (F2, hat, sample_precision_tau Y hat pos (1 / 1000000) (1 / 1000000) D)

/-- The state of `BGCP` after `it` iterations of the outer loop
`for it in range (burn_iter + gibbs_iter)`.  The initializations mirror the
source: `tau = 1`, zero accumulators, `binary_tensor` and `pos_train`
derived from the sparse tensor.  Iteration `it = t` accumulates exactly
when `it + 1 > burn_iter`.  The per-iteration oracle `D t` models the
advancing state of the global random generator. -/
def bgcpGo (m n f r : ℕ) (sparse : Ten) (Finit : Fin 3 → Mat) (burn : ℕ)
    (D : ℕ → Draws) : ℕ → BGCPState
  | 0 => ⟨Finit, 1, fun _ => 0, 0⟩
  | t + 1 =>
    let S := bgcpGo m n f r sparse Finit burn D t
    let step := bgcpSweep m n f r sparse (binaryOf m n f sparse)
      (posTrain m n f sparse) (D t) S.F S.tau
    { F := step.1
      tau := step.2.2
      factor_plus :=
        if burn < t + 1 then fun k i s => S.factor_plus k i s + step.1 k i s
        else S.factor_plus
      tensor_hat_plus :=
        if burn < t + 1 then fun i j u => S.tensor_hat_plus i j u + step.2.1 i j u
        else S.tensor_hat_plus }

/-- Source `BGCP (dense_tensor, sparse_tensor, factor, burn_iter,
gibbs_iter)`: run `burn_iter + gibbs_iter` sweeps and return
`(tensor_hat_plus / gibbs_iter, [fp / gibbs_iter for fp in factor_plus])`.
`r` stands for `factor[0].shape[1]`; the dense (reference) tensor is used
by the source only for the printed held-out metrics over `pos_test`, which
produce no output value. -/
def BGCP (m n f r : ℕ) (dense sparse : Ten) (Finit : Fin 3 → Mat)
    (burn gibbs : ℕ) (D : ℕ → Draws) : Ten × (Fin 3 → Mat) :=
  let _pos_test := posTest m n f dense sparse
  let S := bgcpGo m n f r sparse Finit burn D (burn + gibbs)
  (fun i j t => S.tensor_hat_plus i j t / gibbs,
    fun k i s => S.factor_plus k i s / gibbs)

/-- Reindexing a sum over a Fortran-flattened index range by the
corresponding pair of indices. -/
lemma sum_range_mul_eq (a b : ℕ) (g : ℕ → ℕ → ℚ) :
    ∑ q ∈ Finset.range (a * b), g (q % a) (q / a) =
      ∑ p ∈ Finset.range a ×ˢ Finset.range b, g p.1 p.2 := by
  rcases Nat.eq_zero_or_pos a with ha | ha
  · subst ha
    simp
  · refine Finset.sum_nbij' (fun q => (q % a, q / a)) (fun p => p.1 + a * p.2)
      ?_ ?_ ?_ ?_ ?_
    · intro q hq
      rw [Finset.mem_range] at hq
      refine Finset.mem_product.2 ⟨Finset.mem_range.2 (Nat.mod_lt _ ha),
        Finset.mem_range.2 ?_⟩
      exact Nat.div_lt_of_lt_mul hq
    · intro p hp
      rcases Finset.mem_product.1 hp with ⟨h1, h2⟩
      rw [Finset.mem_range] at h1 h2
      rw [Finset.mem_range]
      calc p.1 + a * p.2 < a + a * p.2 := by omega
        _ = a * (p.2 + 1) := by ring
        _ ≤ a * b := Nat.mul_le_mul_left a h2
    · intro q _
      exact Nat.mod_add_div q a
    · intro p hp
      rcases Finset.mem_product.1 hp with ⟨h1, _⟩
      rw [Finset.mem_range] at h1
      have hm : (p.1 + a * p.2) % a = p.1 := by
        rw [Nat.add_mul_mod_self_left, Nat.mod_eq_of_lt h1]
      have hd : (p.1 + a * p.2) / a = p.2 := by
        rw [Nat.add_mul_div_left _ _ ha, Nat.div_eq_of_lt h1]
        omega
      rw [Prod.ext_iff]
      exact ⟨hm, hd⟩
    · intro q _
      rfl

/-- Two shapeless matrices agreeing on the leading `r × r` block have the
same `matInv`. -/
lemma matInv_congr {r : ℕ} {A B : Mat}
    (h : ∀ a b, a < r → b < r → A a b = B a b) : matInv r A = matInv r B := by
  have hsq : toSq r A = toSq r B := by
    ext i j
    exact h i.val j.val i.isLt j.isLt
  funext i j
  unfold matInv
  rw [hsq]

/-- `symPart` preserves agreement on the leading block. -/
lemma symPart_congr {r : ℕ} {A B : Mat}
    (h : ∀ a b, a < r → b < r → A a b = B a b) :
    ∀ a b, a < r → b < r → symPart A a b = symPart B a b := by
  intro a b hA hB
  unfold symPart
  rw [h a b hA hB, h b a hB hA]

/-- The inverse of a 1 × 1 array is the reciprocal of its entry. -/
lemma matInv_one (A : Mat) : matInv 1 A 0 0 = (A 0 0)⁻¹ := by
  unfold matInv
  rw [dif_pos ⟨Nat.zero_lt_one, Nat.zero_lt_one⟩]
  rw [Matrix.smul_apply, Matrix.adjugate_fin_one, Matrix.det_fin_one]
  simp [toSq]

/-- The sweep as the spec describes it: modes in the fixed order 0, 1, 2;
for each mode the hyperparameter pair is redrawn from the current factor
matrix of that mode and then the factor matrix is redrawn, so the mode-1
draw already sees the updated mode-0 matrix and the mode-2 draw sees both
updated earlier matrices; only after all three updates is the tensor
reconstructed and the precision redrawn, once, from the residual against
that fresh reconstruction. -/
def sweepSpec (m n f r : ℕ) (Y B : Ten) (pos : Finset (ℕ × ℕ × ℕ))
    (D : Draws) (F : Fin 3 → Mat) (tau : ℚ) : (Fin 3 → Mat) × Ten × ℚ :=
  let h0 := sample_hyperparameter m r (F 0) zeroVec 1 (eyeQ r) r D
  let U2 := sample_factor m n f r Y B tau (F 0) (F 1) (F 2) h0.1 h0.2 0 0 D
  let h1 := sample_hyperparameter n r (F 1) zeroVec 1 (eyeQ r) r D
  let V2 := sample_factor m n f r Y B tau U2 (F 1) (F 2) h1.1 h1.2 1 0 D
  let h2 := sample_hyperparameter f r (F 2) zeroVec 1 (eyeQ r) r D
  let X2 := sample_factor m n f r Y B tau U2 V2 (F 2) h2.1 h2.2 2 0 D
  let hat := cp_combine r U2 V2 X2
  (![U2, V2, X2], hat,
    sample_precision_tau Y hat pos (1 / 1000000) (1 / 1000000) D)

/-- The source's in-place loop over the factor list computes exactly the
sequential sweep of `sweepSpec`. -/
lemma bgcpSweep_eq_sweepSpec (m n f r : ℕ) (Y B : Ten)
    (pos : Finset (ℕ × ℕ × ℕ)) (D : Draws) (F : Fin 3 → Mat) (tau : ℚ) :
    bgcpSweep m n f r Y B pos D F tau = sweepSpec m n f r Y B pos D F tau := by
  have h10 : (1 : Fin 3) ≠ 0 := by decide
  have h20 : (2 : Fin 3) ≠ 0 := by decide
  have h21 : (2 : Fin 3) ≠ 1 := by decide
  have h01 : (0 : Fin 3) ≠ 1 := by decide
  have h02 : (0 : Fin 3) ≠ 2 := by decide
  have h12 : (1 : Fin 3) ≠ 2 := by decide
  simp only [bgcpSweep, sweepSpec, bgcpModeStep, List.foldl_cons, List.foldl_nil,
    Fin.isValue, Fin.val_zero, Fin.val_one, Fin.val_two, dimOf,
    Function.update_same, Function.update_noteq h10, Function.update_noteq h20,
    Function.update_noteq h21]
  have hG : ∀ u v x : Mat,
      Function.update (Function.update (Function.update F 0 u) 1 v) 2 x =
        ![u, v, x] := by
    intro u v x
    funext k
    fin_cases k <;>
      simp [Function.update_noteq, h10, h20, h21, h01, h02, h12,
        Function.update_same]
  rw [hG]
  simp [Matrix.cons_val_zero, Matrix.cons_val_one, Matrix.head_cons]

/-- Unfolding one outer-loop iteration: the factor list after iteration
`t` is the first component of the sweep applied to the previous state. -/
lemma bgcpGo_succ_F (m n f r : ℕ) (sparse : Ten) (Finit : Fin 3 → Mat)
    (burn : ℕ) (D : ℕ → Draws) (t : ℕ) :
    (bgcpGo m n f r sparse Finit burn D (t + 1)).F =
      (bgcpSweep m n f r sparse (binaryOf m n f sparse)
        (posTrain m n f sparse) (D t)
        (bgcpGo m n f r sparse Finit burn D t).F
        (bgcpGo m n f r sparse Finit burn D t).tau).1 := rfl

/-- Unfolding one outer-loop iteration: the precision after iteration `t`
is the final component of the sweep applied to the previous state. -/
lemma bgcpGo_succ_tau (m n f r : ℕ) (sparse : Ten) (Finit : Fin 3 → Mat)
    (burn : ℕ) (D : ℕ → Draws) (t : ℕ) :
    (bgcpGo m n f r sparse Finit burn D (t + 1)).tau =
      (bgcpSweep m n f r sparse (binaryOf m n f sparse)
        (posTrain m n f sparse) (D t)
        (bgcpGo m n f r sparse Finit burn D t).F
        (bgcpGo m n f r sparse Finit burn D t).tau).2.2 := rfl

/-- Unfolding one outer-loop iteration: the accumulators update exactly
when `it + 1 > burn_iter`. -/
lemma bgcpGo_succ_plus (m n f r : ℕ) (sparse : Ten) (Finit : Fin 3 → Mat)
    (burn : ℕ) (D : ℕ → Draws) (t : ℕ) :
    (bgcpGo m n f r sparse Finit burn D (t + 1)).factor_plus =
      (if burn < t + 1 then
        fun k i s => (bgcpGo m n f r sparse Finit burn D t).factor_plus k i s +
          (bgcpGo m n f r sparse Finit burn D (t + 1)).F k i s
      else (bgcpGo m n f r sparse Finit burn D t).factor_plus) ∧
    (bgcpGo m n f r sparse Finit burn D (t + 1)).tensor_hat_plus =
      (if burn < t + 1 then
        fun i j u => (bgcpGo m n f r sparse Finit burn D t).tensor_hat_plus i j u +
          cp_combine r ((bgcpGo m n f r sparse Finit burn D (t + 1)).F 0)
            ((bgcpGo m n f r sparse Finit burn D (t + 1)).F 1)
            ((bgcpGo m n f r sparse Finit burn D (t + 1)).F 2) i j u
      else (bgcpGo m n f r sparse Finit burn D t).tensor_hat_plus) :=
  ⟨rfl, rfl⟩

/-- During burn-in the accumulators stay identically zero. -/
lemma bgcpGo_plus_burnin (m n f r : ℕ) (sparse : Ten) (Finit : Fin 3 → Mat)
    (burn : ℕ) (D : ℕ → Draws) :
    ∀ T, T ≤ burn →
      (bgcpGo m n f r sparse Finit burn D T).factor_plus = (fun _ => 0) ∧
      (bgcpGo m n f r sparse Finit burn D T).tensor_hat_plus = 0 := by
  intro T
  induction T with
  | zero => intro _; exact ⟨rfl, rfl⟩
  | succ t ih =>
    intro hT
    have hnot : ¬ burn < t + 1 := by omega
    rcases bgcpGo_succ_plus m n f r sparse Finit burn D t with ⟨hp, hh⟩
    rw [if_neg hnot] at hp hh
    have := ih (by omega)
    exact ⟨hp.trans this.1, hh.trans this.2⟩

/-- During the collection phase the accumulators are the running sums of
the post-sweep factor matrices and reconstructions. -/
lemma bgcpGo_plus_collect (m n f r : ℕ) (sparse : Ten) (Finit : Fin 3 → Mat)
    (burn : ℕ) (D : ℕ → Draws) :
    ∀ g,
      (∀ k i s, (bgcpGo m n f r sparse Finit burn D (burn + g)).factor_plus k i s =
        ∑ t ∈ Finset.range g,
          (bgcpGo m n f r sparse Finit burn D (burn + t + 1)).F k i s) ∧
      (∀ i j u, (bgcpGo m n f r sparse Finit burn D (burn + g)).tensor_hat_plus i j u =
        ∑ t ∈ Finset.range g,
          cp_combine r ((bgcpGo m n f r sparse Finit burn D (burn + t + 1)).F 0)
            ((bgcpGo m n f r sparse Finit burn D (burn + t + 1)).F 1)
            ((bgcpGo m n f r sparse Finit burn D (burn + t + 1)).F 2) i j u) := by
  intro g
  induction g with
  | zero =>
    rcases bgcpGo_plus_burnin m n f r sparse Finit burn D burn le_rfl with ⟨hp, hh⟩
    constructor
    · intro k i s
      rw [Nat.add_zero, hp, Finset.sum_range_zero]
      rfl
    · intro i j u
      rw [Nat.add_zero, hh, Finset.sum_range_zero]
      rfl
  | succ g ih =>
    have hlt : burn < burn + g + 1 := by omega
    have heq : burn + (g + 1) = (burn + g) + 1 := by omega
    rcases bgcpGo_succ_plus m n f r sparse Finit burn D (burn + g) with ⟨hp, hh⟩
    rw [if_pos hlt] at hp hh
    constructor
    · intro k i s
      rw [heq]
      simp only [hp]
      rw [ih.1 k i s, Finset.sum_range_succ]
    · intro i j u
      rw [heq]
      simp only [hh]
      rw [ih.2 i j u, Finset.sum_range_succ]

/-- C7: for every 3-D tensor and every mode k in {0, 1, 2}, the mode-k
unfolding produced by `ten2mat` is invertible: re-folding the resulting
matrix with the same element-ordering convention (mode k leading, the
remaining axes flattened in Fortran order) reconstructs every in-range
entry of the original tensor exactly. -/
theorem c7_unfold_roundtrip (m n f : ℕ) (T : Ten) (k : ℕ) (hk : k < 3)
    (i j t : ℕ) (hi : i < m) (hj : j < n) (ht : t < f) :
    mat2ten m n (ten2mat m n T k) k i j t = T i j t := by
  have hm : 0 < m := by omega
  have hn : 0 < n := by omega
  interval_cases k
  · show T i ((j + n * t) % n) ((j + n * t) / n) = T i j t
    rw [Nat.add_mul_mod_self_left, Nat.mod_eq_of_lt hj,
      Nat.add_mul_div_left _ _ hn, Nat.div_eq_of_lt hj, Nat.zero_add]
  · show T ((i + m * t) % m) j ((i + m * t) / m) = T i j t
    rw [Nat.add_mul_mod_self_left, Nat.mod_eq_of_lt hi,
      Nat.add_mul_div_left _ _ hm, Nat.div_eq_of_lt hi, Nat.zero_add]
  · show T ((i + m * j) % m) ((i + m * j) / m) t = T i j t
    rw [Nat.add_mul_mod_self_left, Nat.mod_eq_of_lt hi,
      Nat.add_mul_div_left _ _ hm, Nat.div_eq_of_lt hi, Nat.zero_add]

/-- Witness for C7 at a concrete input: the round trip holds at mode 0 of
a 1 × 1 × 1 tensor with entry 5. -/
theorem c7_unfold_roundtrip_witness :
    ((0 : ℕ) < 3 ∧ (0 : ℕ) < 1) ∧
      mat2ten 1 1 (ten2mat 1 1 (fun _ _ _ => (5 : ℚ)) 0) 0 0 0 0 =
        (fun _ _ _ => (5 : ℚ)) 0 0 0 :=
  ⟨⟨by decide, by decide⟩,
    c7_unfold_roundtrip 1 1 1 (fun _ _ _ => 5) 0 (by decide) 0 0 0
      (by decide) (by decide) (by decide)⟩

/-- C5: `sample_precision_tau` draws tau from a Gamma distribution with
shape `alpha0 + |train set| / 2` and rate
`beta0 + (sum over train entries of (observed - reconstructed)^2) / 2`.
The oracle `D.gamma` is numpy's shape/scale-parameterized sampler, so
drawing under the rate parameterization is calling it with the reciprocal
of the rate as the scale, which is exactly what the source's
`np.random.gamma (var_alpha, 1 / var_beta)` does. -/
theorem c5_precision_gamma_params (Y hat : Ten) (pos : Finset (ℕ × ℕ × ℕ))
    (alpha beta : ℚ) (D : Draws) :
    sample_precision_tau Y hat pos alpha beta D =
      D.gamma (alpha + (pos.card : ℚ) / 2)
        (1 / (beta +
          (∑ p ∈ pos, (Y p.1 p.2.1 p.2.2 - hat p.1 p.2.1 p.2.2) ^ 2) / 2)) := by
  unfold sample_precision_tau
  set s := ∑ p ∈ pos, (Y p.1 p.2.1 p.2.2 - hat p.1 p.2.1 p.2.2) ^ 2 with hs
  congr 1 <;> ring

/-- C6: `sample_hyperparameter` draws Lambda from a Wishart with degrees
of freedom `dim + nu0` and scale
`(W0⁻¹ + S + (dim * beta0 / (dim + beta0)) * outer (mbar - mu0, mbar - mu0))⁻¹`,
where `mbar` is the row mean and `S` the unnormalized row scatter
(sum over rows of `outer (row - column-mean, row - column-mean)`, which is
what `cov_mat` computes), and then draws mu from a Gaussian with mean
`(dim * mbar + beta0 * mu0) / (dim + beta0)` and covariance
`((dim + beta0) * Lambda)⁻¹`. -/
theorem c6_hyperparameter_normal_wishart (dim r : ℕ) (factor_k : Mat)
    (mu0 : Vec) (beta0 : ℚ) (W0 : Mat) (nu0 : ℕ) (D : Draws) :
    sample_hyperparameter dim r factor_k mu0 beta0 W0 nu0 D =
      (let mbar : Vec := fun a => (∑ i ∈ Finset.range dim, factor_k i a) / dim
       let S : Mat := fun a b =>
         ∑ i ∈ Finset.range dim, (factor_k i a - mbar a) * (factor_k i b - mbar b)
       let Wstar : Mat := matInv r (fun a b =>
         matInv r W0 a b + S a b +
           (dim : ℚ) * beta0 / ((dim : ℚ) + beta0) *
             ((mbar a - mu0 a) * (mbar b - mu0 b)))
       let Lambda : Mat := D.wish (dim + nu0) Wstar
       (D.gauss
          (fun a => ((dim : ℚ) * mbar a + beta0 * mu0 a) / ((dim : ℚ) + beta0))
          (matInv r (fun a b => ((dim : ℚ) + beta0) * Lambda a b)),
        Lambda)) := by
  unfold sample_hyperparameter cov_mat
  rfl

/-- C3: in every sweep of `BGCP` the modes are processed in the fixed
order 0, 1, 2; for each mode the hyperparameter pair is first redrawn from
the current factor matrix and then the factor matrix is redrawn (so modes
1 and 2 already see the updated earlier modes within the same sweep), and
only after all three mode updates is the tensor reconstructed with
`cp_combine` and the precision redrawn, exactly once, from the residual
against that fresh reconstruction — i.e. the source's sweep equals
`sweepSpec`, the sweep written exactly as this sequential description. -/
theorem c3_sweep_sequential (m n f r : ℕ) (Y B : Ten)
    (pos : Finset (ℕ × ℕ × ℕ)) (D : Draws) (F : Fin 3 → Mat) (tau : ℚ) :
    bgcpSweep m n f r Y B pos D F tau = sweepSpec m n f r Y B pos D F tau :=
  bgcpSweep_eq_sweepSpec m n f r Y B pos D F tau

/-- C10: `BGCP` initializes tau to 1 and reassigns it only at the end of
each sweep: the state before the first sweep carries tau = 1, every
sweep's three factor draws use the tau carried in from the previous
sweep's end (the same value for all three modes), and the tau carried out
of sweep `t` is the Gamma draw taken, after all three factor updates, from
the residual of that sweep's fresh reconstruction. -/
theorem c10_tau_init_and_dataflow (m n f r : ℕ) (sparse : Ten)
    (Finit : Fin 3 → Mat) (burn : ℕ) (D : ℕ → Draws) :
    (bgcpGo m n f r sparse Finit burn D 0).tau = 1 ∧
    ∀ t,
      (let S := bgcpGo m n f r sparse Finit burn D t
       let S2 := bgcpGo m n f r sparse Finit burn D (t + 1)
       let Bt := binaryOf m n f sparse
       let h0 := sample_hyperparameter m r (S.F 0) zeroVec 1 (eyeQ r) r (D t)
       let h1 := sample_hyperparameter n r (S.F 1) zeroVec 1 (eyeQ r) r (D t)
       let h2 := sample_hyperparameter f r (S.F 2) zeroVec 1 (eyeQ r) r (D t)
       S2.F 0 = sample_factor m n f r sparse Bt S.tau (S.F 0) (S.F 1) (S.F 2)
           h0.1 h0.2 0 0 (D t) ∧
       S2.F 1 = sample_factor m n f r sparse Bt S.tau (S2.F 0) (S.F 1) (S.F 2)
           h1.1 h1.2 1 0 (D t) ∧
       S2.F 2 = sample_factor m n f r sparse Bt S.tau (S2.F 0) (S2.F 1) (S.F 2)
           h2.1 h2.2 2 0 (D t) ∧
       S2.tau = sample_precision_tau sparse
           (cp_combine r (S2.F 0) (S2.F 1) (S2.F 2))
           (posTrain m n f sparse) (1 / 1000000) (1 / 1000000) (D t)) := by
  refine ⟨rfl, ?_⟩
  intro t
  have hF := bgcpGo_succ_F m n f r sparse Finit burn D t
  have htau := bgcpGo_succ_tau m n f r sparse Finit burn D t
  rw [bgcpSweep_eq_sweepSpec] at hF htau
  simp only [sweepSpec] at hF htau
  have e0 : (bgcpGo m n f r sparse Finit burn D (t + 1)).F 0 =
      sample_factor m n f r sparse (binaryOf m n f sparse)
        (bgcpGo m n f r sparse Finit burn D t).tau
        ((bgcpGo m n f r sparse Finit burn D t).F 0)
        ((bgcpGo m n f r sparse Finit burn D t).F 1)
        ((bgcpGo m n f r sparse Finit burn D t).F 2)
        (sample_hyperparameter m r ((bgcpGo m n f r sparse Finit burn D t).F 0)
          zeroVec 1 (eyeQ r) r (D t)).1
        (sample_hyperparameter m r ((bgcpGo m n f r sparse Finit burn D t).F 0)
          zeroVec 1 (eyeQ r) r (D t)).2 0 0 (D t) := by
    rw [hF]
    simp [Matrix.cons_val_zero]
  have e1 : (bgcpGo m n f r sparse Finit burn D (t + 1)).F 1 =
      sample_factor m n f r sparse (binaryOf m n f sparse)
        (bgcpGo m n f r sparse Finit burn D t).tau
        ((bgcpGo m n f r sparse Finit burn D (t + 1)).F 0)
        ((bgcpGo m n f r sparse Finit burn D t).F 1)
        ((bgcpGo m n f r sparse Finit burn D t).F 2)
        (sample_hyperparameter n r ((bgcpGo m n f r sparse Finit burn D t).F 1)
          zeroVec 1 (eyeQ r) r (D t)).1
        (sample_hyperparameter n r ((bgcpGo m n f r sparse Finit burn D t).F 1)
          zeroVec 1 (eyeQ r) r (D t)).2 1 0 (D t) := by
    rw [e0, hF]
    simp [Matrix.cons_val_one, Matrix.head_cons]
  have e2 : (bgcpGo m n f r sparse Finit burn D (t + 1)).F 2 =
      sample_factor m n f r sparse (binaryOf m n f sparse)
        (bgcpGo m n f r sparse Finit burn D t).tau
        ((bgcpGo m n f r sparse Finit burn D (t + 1)).F 0)
        ((bgcpGo m n f r sparse Finit burn D (t + 1)).F 1)
        ((bgcpGo m n f r sparse Finit burn D t).F 2)
        (sample_hyperparameter f r ((bgcpGo m n f r sparse Finit burn D t).F 2)
          zeroVec 1 (eyeQ r) r (D t)).1
        (sample_hyperparameter f r ((bgcpGo m n f r sparse Finit burn D t).F 2)
          zeroVec 1 (eyeQ r) r (D t)).2 2 0 (D t) := by
    rw [e0, e1, hF]
    simp
  refine ⟨e0, e1, e2, ?_⟩
  rw [htau, e0, e1, e2, hF]
  simp

/-- C4: the factor and tensor accumulators are updated exactly during the
`gibbs_iter` collection sweeps and never during burn-in (they are still
identically zero after the `burn_iter` burn-in sweeps), and the returned
outputs are the accumulated sums divided by `gibbs_iter`: the returned
tensor is the arithmetic mean of the `gibbs_iter` per-sweep
reconstructions and each returned factor matrix is the arithmetic mean of
the `gibbs_iter` per-sweep factor samples. -/
theorem c4_posterior_mean_outputs (m n f r : ℕ) (dense sparse : Ten)
    (Finit : Fin 3 → Mat) (burn gibbs : ℕ) (D : ℕ → Draws) :
    ((bgcpGo m n f r sparse Finit burn D burn).factor_plus = (fun _ => 0) ∧
      (bgcpGo m n f r sparse Finit burn D burn).tensor_hat_plus = 0) ∧
    (BGCP m n f r dense sparse Finit burn gibbs D).1 = (fun i j t =>
      (∑ s ∈ Finset.range gibbs,
        cp_combine r ((bgcpGo m n f r sparse Finit burn D (burn + s + 1)).F 0)
          ((bgcpGo m n f r sparse Finit burn D (burn + s + 1)).F 1)
          ((bgcpGo m n f r sparse Finit burn D (burn + s + 1)).F 2) i j t)
        / gibbs) ∧
    (BGCP m n f r dense sparse Finit burn gibbs D).2 = fun k i s =>
      (∑ t ∈ Finset.range gibbs,
        (bgcpGo m n f r sparse Finit burn D (burn + t + 1)).F k i s) / gibbs := by
  refine ⟨bgcpGo_plus_burnin m n f r sparse Finit burn D burn le_rfl, ?_, ?_⟩
  · funext i j t
    show (bgcpGo m n f r sparse Finit burn D (burn + gibbs)).tensor_hat_plus
        i j t / gibbs = _
    rw [(bgcpGo_plus_collect m n f r sparse Finit burn D gibbs).2 i j t]
  · funext k i s
    show (bgcpGo m n f r sparse Finit burn D (burn + gibbs)).factor_plus
        k i s / gibbs = _
    rw [(bgcpGo_plus_collect m n f r sparse Finit burn D gibbs).1 k i s]

/-- `ten2mat` at mode 0, as an index map. -/
lemma ten2mat_zero (m n : ℕ) (T : Ten) :
    ten2mat m n T 0 = fun i q => T i (q % n) (q / n) := rfl

/-- `ten2mat` at mode 1, as an index map. -/
lemma ten2mat_one (m n : ℕ) (T : Ten) :
    ten2mat m n T 1 = fun j q => T (q % m) j (q / m) := rfl

/-- `ten2mat` at mode 2, as an index map. -/
lemma ten2mat_two (m n : ℕ) (T : Ten) :
    ten2mat m n T 2 = fun t q => T (q % m) (q / m) t := rfl

/-- Decoding the flattened row index of `kr_prod (var1, var1)`. -/
lemma krSquare_apply (P Q : Mat) (d1 r a b q : ℕ) (ha : a < r) (hb : b < r) :
    kr_prod (fun s q2 => kr_prod Q P d1 q2 s) (fun s q2 => kr_prod Q P d1 q2 s)
        r (a * r + b) q =
      (Q (q / d1) a * P (q % d1) a) * (Q (q / d1) b * P (q % d1) b) := by
  have hr : 0 < r := by omega
  have h1 : a * r + b = b + r * a := by ring
  have hdiv : (a * r + b) / r = a := by
    rw [h1, Nat.add_mul_div_left _ _ hr, Nat.div_eq_of_lt hb, Nat.zero_add]
  have hmod : (a * r + b) % r = b := by
    rw [h1, Nat.add_mul_mod_self_left, Nat.mod_eq_of_lt hb]
  show (fun s q2 => kr_prod Q P d1 q2 s) ((a * r + b) / r) q *
      (fun s q2 => kr_prod Q P d1 q2 s) ((a * r + b) % r) q = _
  rw [hdiv, hmod]
  rfl

/-- The masked batch sum of the dense strategy, for one entry `(a, b)` of
the per-row precision, equals the claim's sum of cofactor outer products
over the observed pairs. -/
lemma dense_lambda_sum (d1 d2 r : ℕ) (P Q : Mat) (w mask : ℕ → ℕ → ℚ)
    (hmask : ∀ j t, j < d1 → t < d2 → mask j t = if w j t = 0 then 0 else 1)
    (a b : ℕ) (ha : a < r) (hb : b < r) :
    ∑ q ∈ Finset.range (d1 * d2),
        kr_prod (fun s q2 => kr_prod Q P d1 q2 s) (fun s q2 => kr_prod Q P d1 q2 s)
          r (a * r + b) q * mask (q % d1) (q / d1) =
      ∑ p ∈ (Finset.range d1 ×ˢ Finset.range d2).filter fun p => w p.1 p.2 ≠ 0,
        (P p.1 a * Q p.2 a) * (P p.1 b * Q p.2 b) := by
  have hterm : ∀ q ∈ Finset.range (d1 * d2),
      kr_prod (fun s q2 => kr_prod Q P d1 q2 s) (fun s q2 => kr_prod Q P d1 q2 s)
          r (a * r + b) q * mask (q % d1) (q / d1) =
        (fun j t => (Q t a * P j a) * (Q t b * P j b) * mask j t) (q % d1) (q / d1) := by
    intro q _
    rw [krSquare_apply P Q d1 r a b q ha hb]
  rw [Finset.sum_congr rfl hterm,
    sum_range_mul_eq d1 d2 (fun j t => (Q t a * P j a) * (Q t b * P j b) * mask j t),
    Finset.sum_filter]
  refine Finset.sum_congr rfl ?_
  intro p hp
  rcases Finset.mem_product.1 hp with ⟨h1, h2⟩
  rw [Finset.mem_range] at h1 h2
  rw [hmask p.1 p.2 h1 h2]
  by_cases hw : w p.1 p.2 = 0
  · simp [hw]
  · rw [if_neg hw, if_pos hw]
    ring

/-- The batch data sum of the dense strategy, for one coordinate `b` of
the per-row linear term, equals the claim's sum of `y * cofactor` over the
observed pairs (unobserved entries hold the zero sentinel and contribute
nothing). -/
lemma dense_data_sum (d1 d2 : ℕ) (P Q : Mat) (w : ℕ → ℕ → ℚ) (b : ℕ) :
    ∑ q ∈ Finset.range (d1 * d2), kr_prod Q P d1 q b * w (q % d1) (q / d1) =
      ∑ p ∈ (Finset.range d1 ×ˢ Finset.range d2).filter fun p => w p.1 p.2 ≠ 0,
        w p.1 p.2 * (P p.1 b * Q p.2 b) := by
  have hterm : ∀ q ∈ Finset.range (d1 * d2),
      kr_prod Q P d1 q b * w (q % d1) (q / d1) =
        (fun j t => Q t b * P j b * w j t) (q % d1) (q / d1) := by
    intro q _
    rfl
  rw [Finset.sum_congr rfl hterm,
    sum_range_mul_eq d1 d2 (fun j t => Q t b * P j b * w j t), Finset.sum_filter]
  refine Finset.sum_congr rfl ?_
  intro p _
  by_cases hw : w p.1 p.2 = 0
  · rw [if_neg (by simpa using hw), hw]
    ring
  · rw [if_pos hw]
    ring

/-- Modelled from the claim (C2): the per-row posterior draw of the spec,
for one row of one mode.  `obs` is the set of observed coordinate pairs
for this row, `c p` the corresponding row of the Khatri-Rao product of the
other two modes' factor matrices, and `y p` the observed value; the row is
drawn from a Gaussian with precision
`Lstar = tau * sum of c c^T + Lambda_hyper` (symmetrized before inversion)
and mean `Lstar⁻¹ (tau * sum of y c + Lambda_hyper mu_hyper)`. -/
def rowPost (r : ℕ) (tau : ℚ) (mu_hyper : Vec) (Lambda_hyper : Mat)
    (obs : Finset (ℕ × ℕ)) (c : ℕ × ℕ → Vec) (y : ℕ × ℕ → ℚ) (D : Draws) : Vec :=
  let Lstar : Mat := fun a b => tau * ∑ p ∈ obs, c p a * c p b + Lambda_hyper a b
  let iL : Mat := matInv r (symPart Lstar)
  D.gauss
    (fun a => ∑ b ∈ Finset.range r, iL a b *
      (tau * ∑ p ∈ obs, y p * c p b +
        ∑ s ∈ Finset.range r, Lambda_hyper b s * mu_hyper s))
    iL

/-- Mode-0 instance of the dense per-row posterior computation. -/
lemma c2_mode0 (m n f r : ℕ) (Y B : Ten) (tau : ℚ) (U V X : Mat)
    (mu_hyper : Vec) (Lambda_hyper : Mat) (D : Draws)
    (hB : ∀ i j t, i < m → j < n → t < f → B i j t = if Y i j t = 0 then 0 else 1)
    (i : ℕ) (hi : i < m) :
    sample_factor_dense m n f r Y B tau U V X mu_hyper Lambda_hyper 0 D i =
      rowPost r tau mu_hyper Lambda_hyper
        ((Finset.range n ×ˢ Finset.range f).filter fun p => Y i p.1 p.2 ≠ 0)
        (fun p a => V p.1 a * X p.2 a) (fun p => Y i p.1 p.2) D := by
  unfold sample_factor_dense rowPost
  simp only [ten2mat_zero]
  have hcore : ∀ a b, a < r → b < r →
      tau * (∑ q ∈ Finset.range (n * f),
          kr_prod (fun s q2 => kr_prod X V n q2 s) (fun s q2 => kr_prod X V n q2 s)
            r (a * r + b) q * B i (q % n) (q / n)) + Lambda_hyper a b =
        tau * (∑ p ∈ (Finset.range n ×ˢ Finset.range f).filter
            (fun p => Y i p.1 p.2 ≠ 0),
          (V p.1 a * X p.2 a) * (V p.1 b * X p.2 b)) + Lambda_hyper a b := by
    intro a b ha hb
    rw [dense_lambda_sum n f r V X (fun j t => Y i j t) (fun j t => B i j t)
      (fun j t hj ht => hB i j t hi hj ht) a b ha hb]
  have hiL := matInv_congr (r := r) (symPart_congr hcore)
  refine congrArg₂ D.gauss ?_ hiL
  funext a
  refine Finset.sum_congr rfl ?_
  intro b hb
  rw [hiL, dense_data_sum n f V X (fun j t => Y i j t) b]

/-- Mode-1 instance of the dense per-row posterior computation. -/
lemma c2_mode1 (m n f r : ℕ) (Y B : Ten) (tau : ℚ) (U V X : Mat)
    (mu_hyper : Vec) (Lambda_hyper : Mat) (D : Draws)
    (hB : ∀ i j t, i < m → j < n → t < f → B i j t = if Y i j t = 0 then 0 else 1)
    (j : ℕ) (hj : j < n) :
    sample_factor_dense m n f r Y B tau U V X mu_hyper Lambda_hyper 1 D j =
      rowPost r tau mu_hyper Lambda_hyper
        ((Finset.range m ×ˢ Finset.range f).filter fun p => Y p.1 j p.2 ≠ 0)
        (fun p a => U p.1 a * X p.2 a) (fun p => Y p.1 j p.2) D := by
  unfold sample_factor_dense rowPost
  simp only [ten2mat_one]
  have hcore : ∀ a b, a < r → b < r →
      tau * (∑ q ∈ Finset.range (m * f),
          kr_prod (fun s q2 => kr_prod X U m q2 s) (fun s q2 => kr_prod X U m q2 s)
            r (a * r + b) q * B (q % m) j (q / m)) + Lambda_hyper a b =
        tau * (∑ p ∈ (Finset.range m ×ˢ Finset.range f).filter
            (fun p => Y p.1 j p.2 ≠ 0),
          (U p.1 a * X p.2 a) * (U p.1 b * X p.2 b)) + Lambda_hyper a b := by
    intro a b ha hb
    rw [dense_lambda_sum m f r U X (fun i2 t => Y i2 j t) (fun i2 t => B i2 j t)
      (fun i2 t h1 h2 => hB i2 j t h1 hj h2) a b ha hb]
  have hiL := matInv_congr (r := r) (symPart_congr hcore)
  refine congrArg₂ D.gauss ?_ hiL
  funext a
  refine Finset.sum_congr rfl ?_
  intro b hb
  rw [hiL, dense_data_sum m f U X (fun i2 t => Y i2 j t) b]

/-- Mode-2 instance of the dense per-row posterior computation. -/
lemma c2_mode2 (m n f r : ℕ) (Y B : Ten) (tau : ℚ) (U V X : Mat)
    (mu_hyper : Vec) (Lambda_hyper : Mat) (D : Draws)
    (hB : ∀ i j t, i < m → j < n → t < f → B i j t = if Y i j t = 0 then 0 else 1)
    (t : ℕ) (ht : t < f) :
    sample_factor_dense m n f r Y B tau U V X mu_hyper Lambda_hyper 2 D t =
      rowPost r tau mu_hyper Lambda_hyper
        ((Finset.range m ×ˢ Finset.range n).filter fun p => Y p.1 p.2 t ≠ 0)
        (fun p a => U p.1 a * V p.2 a) (fun p => Y p.1 p.2 t) D := by
  unfold sample_factor_dense rowPost
  simp only [ten2mat_two]
  have hcore : ∀ a b, a < r → b < r →
      tau * (∑ q ∈ Finset.range (m * n),
          kr_prod (fun s q2 => kr_prod V U m q2 s) (fun s q2 => kr_prod V U m q2 s)
            r (a * r + b) q * B (q % m) (q / m) t) + Lambda_hyper a b =
        tau * (∑ p ∈ (Finset.range m ×ˢ Finset.range n).filter
            (fun p => Y p.1 p.2 t ≠ 0),
          (U p.1 a * V p.2 a) * (U p.1 b * V p.2 b)) + Lambda_hyper a b := by
    intro a b ha hb
    rw [dense_lambda_sum m n r U V (fun i2 j2 => Y i2 j2 t) (fun i2 j2 => B i2 j2 t)
      (fun i2 j2 h1 h2 => hB i2 j2 t h1 h2 ht) a b ha hb]
  have hiL := matInv_congr (r := r) (symPart_congr hcore)
  refine congrArg₂ D.gauss ?_ hiL
  funext a
  refine Finset.sum_congr rfl ?_
  intro b hb
  rw [hiL, dense_data_sum m n U V (fun i2 j2 => Y i2 j2 t) b]

/-- The conjunction claimed by C2: for every mode, every row of the dense
strategy is drawn from the claim's per-row posterior `rowPost`, with the
observed-pair set, Khatri-Rao cofactor rows, and data taken from that
row's slice of the tensor. -/
def C2Concl (m n f r : ℕ) (Y B : Ten) (tau : ℚ) (U V X : Mat)
    (mu_hyper : Vec) (Lambda_hyper : Mat) (D : Draws) : Prop :=
  (∀ i, i < m →
    sample_factor_dense m n f r Y B tau U V X mu_hyper Lambda_hyper 0 D i =
      rowPost r tau mu_hyper Lambda_hyper
        ((Finset.range n ×ˢ Finset.range f).filter fun p => Y i p.1 p.2 ≠ 0)
        (fun p a => V p.1 a * X p.2 a) (fun p => Y i p.1 p.2) D) ∧
  (∀ j, j < n →
    sample_factor_dense m n f r Y B tau U V X mu_hyper Lambda_hyper 1 D j =
      rowPost r tau mu_hyper Lambda_hyper
        ((Finset.range m ×ˢ Finset.range f).filter fun p => Y p.1 j p.2 ≠ 0)
        (fun p a => U p.1 a * X p.2 a) (fun p => Y p.1 j p.2) D) ∧
  (∀ t, t < f →
    sample_factor_dense m n f r Y B tau U V X mu_hyper Lambda_hyper 2 D t =
      rowPost r tau mu_hyper Lambda_hyper
        ((Finset.range m ×ˢ Finset.range n).filter fun p => Y p.1 p.2 t ≠ 0)
        (fun p a => U p.1 a * V p.2 a) (fun p => Y p.1 p.2 t) D)

/-- C2: for every mode k and every row of factor matrix k, the dense
strategy of `sample_factor` draws the new row from a Gaussian with
precision `Lambda* = tau * (sum over the observed pairs of c c^T) +
Lambda_hyper` (symmetrized as `(M + M^T) / 2` before inversion) and mean
`Lambda*⁻¹ (tau * sum of y * c + Lambda_hyper * mu_hyper)`, where `c` is
the corresponding row of the Khatri-Rao product of the other two modes'
factor matrices; entries missing from the tensor (zero sentinel, i.e.
zero entries of the binary mask) contribute nothing to either sum. -/
theorem c2_dense_rowwise_posterior (m n f r : ℕ) (Y B : Ten) (tau : ℚ)
    (U V X : Mat) (mu_hyper : Vec) (Lambda_hyper : Mat) (D : Draws)
    (hB : ∀ i j t, i < m → j < n → t < f →
      B i j t = if Y i j t = 0 then 0 else 1) :
    C2Concl m n f r Y B tau U V X mu_hyper Lambda_hyper D :=
  ⟨fun i hi => c2_mode0 m n f r Y B tau U V X mu_hyper Lambda_hyper D hB i hi,
   fun j hj => c2_mode1 m n f r Y B tau U V X mu_hyper Lambda_hyper D hB j hj,
   fun t ht => c2_mode2 m n f r Y B tau U V X mu_hyper Lambda_hyper D hB t ht⟩

/-- The all-ones tensor, used as a concrete observed input. -/
def oneTen : Ten := fun _ _ _ => 1

/-- The all-ones matrix, used as a concrete factor matrix. -/
def oneMat : Mat := fun _ _ => 1

/-- A concrete draw oracle: the Gaussian returns its mean, the Wishart
returns its scale, the Gamma returns its shape. -/
def idDraws : Draws := ⟨fun mu _ => mu, fun _ W => W, fun a _ => a⟩

/-- Witness for C2 at a concrete input: a fully observed 1 × 1 × 1 tensor
of ones with the matching binary mask. -/
theorem c2_dense_rowwise_posterior_witness :
    (∀ i j t : ℕ, i < 1 → j < 1 → t < 1 →
      oneTen i j t = if oneTen i j t = 0 then 0 else 1) ∧
    C2Concl 1 1 1 1 oneTen oneTen 1 oneMat oneMat oneMat zeroVec (eyeQ 1)
      idDraws :=
  have hB : ∀ i j t : ℕ, i < 1 → j < 1 → t < 1 →
      oneTen i j t = if oneTen i j t = 0 then 0 else 1 :=
    fun _ _ _ _ _ _ => by norm_num [oneTen]
  ⟨hB, c2_dense_rowwise_posterior 1 1 1 1 oneTen oneTen 1 oneMat oneMat oneMat
    zeroVec (eyeQ 1) idDraws hB⟩


/-- A 2 × 1 × 1 tensor with a single observed entry at (0, 0, 0); row 1 of
mode 0 has no observations.  It is its own binary mask (entries are 0/1). -/
def c1Y : Ten := fun i j t => if i = 0 ∧ j = 0 ∧ t = 0 then 1 else 0

/-- C1 (refutation): on the 2 × 1 × 1 tensor `c1Y` with rank 1, mode 0,
tau = 1, identity `Lambda_hyper`, zero `mu_hyper`, all-ones cofactor
matrices, and the mean-returning Gaussian oracle, the dense and sparse
strategies of `sample_factor` disagree on row 1: the dense strategy
computes row 1's posterior from row 1's (empty) slice and draws at mean 0,
while the sparse strategy indexes the tensor slice with the mode number
`k = 0` instead of the row index `i`, reuses row 0's sufficient
statistics for every row, and draws at mean 1/2. -/
theorem c1_dense_sparse_rows_differ :
    sample_factor_dense 2 1 1 1 c1Y c1Y 1 oneMat oneMat oneMat zeroVec
        (eyeQ 1) 0 idDraws 1 0 ≠
      sample_factor_sparse 2 1 1 1 c1Y c1Y 1 oneMat oneMat oneMat zeroVec
        (eyeQ 1) 0 idDraws 1 0 := by
  have hd : sample_factor_dense 2 1 1 1 c1Y c1Y 1 oneMat oneMat oneMat zeroVec
      (eyeQ 1) 0 idDraws 1 0 = 0 := by
    unfold sample_factor_dense
    simp only [idDraws, Nat.reduceMul, Finset.sum_range_one]
    have ht : ten2mat 2 1 c1Y 0 1 0 = 0 := rfl
    rw [ht, matInv_one]
    norm_num [symPart, eyeQ, zeroVec, kr_prod, oneMat]
  have hs : sample_factor_sparse 2 1 1 1 c1Y c1Y 1 oneMat oneMat oneMat zeroVec
      (eyeQ 1) 0 idDraws 1 0 = 1 / 2 := by
    unfold sample_factor_sparse
    simp only [idDraws, Finset.sum_range_one]
    have hset : ((Finset.range 1 ×ˢ Finset.range 1).filter
        fun p : ℕ × ℕ => c1Y 0 p.1 p.2 ≠ 0) = {(0, 0)} := by decide
    rw [hset]
    simp only [Finset.sum_singleton]
    rw [matInv_one]
    norm_num [symPart, eyeQ, zeroVec, oneMat, c1Y]
  rw [hd, hs]
  norm_num

/-- C8 (refutation): `compute_mape` signals nothing on a zero ground-truth
entry.  It is a total function that divides unguarded: on the singleton
test vector with ground truth 0 and prediction 1 it simply returns a
value (the zero-denominator term contributes the embedding's
division-by-zero convention, 0, so the entry is silently dropped; in IEEE
arithmetic the same unguarded division yields a non-finite value — in
neither reading is an explicit undefined-metric condition raised). -/
theorem c8_mape_silent_on_zero :
    compute_mape 1 (fun _ => 0) (fun _ => 1) = 0 := by
  norm_num [compute_mape]

/-- C8 (amended, provable half): under `BGCP`'s construction of the test
set — entries nonzero in the reference array and zero in the sparse
array — every test-set ground-truth value is nonzero, so the
zero-denominator case never arises for the metrics `BGCP` reports. -/
theorem c8_test_ground_truth_nonzero (m n f : ℕ) (dense sparse : Ten)
    (p : ℕ × ℕ × ℕ) (hp : p ∈ posTest m n f dense sparse) :
    dense p.1 p.2.1 p.2.2 ≠ 0 :=
  ((Finset.mem_filter.1 hp).2).1

/-- Witness for the amended C8 at a concrete input: (0, 0, 0) is a test
point of the all-ones reference with the all-zero sparse tensor, and its
ground truth is nonzero. -/
theorem c8_test_ground_truth_nonzero_witness :
    ((0, 0, 0) ∈ posTest 1 1 1 oneTen (fun _ _ _ => 0)) ∧
      oneTen 0 0 0 ≠ 0 :=
  have hp : ((0 : ℕ), (0 : ℕ), (0 : ℕ)) ∈ posTest 1 1 1 oneTen (fun _ _ _ => 0) := by
    decide
  ⟨hp, c8_test_ground_truth_nonzero 1 1 1 oneTen (fun _ _ _ => 0) (0, 0, 0) hp⟩

/-- The constant-2 matrix, a concrete initial `factor[0]`. -/
def twoMat : Mat := fun _ _ => 2

/-- A concrete inconsistent factor list: `factor[0]` is 1 × 1 (so the run
rank is 1), while the provided `factor[1]` carries two columns of support
(a 1 × 2 matrix), mismatching the rank. -/
def c9F : Fin 3 → Mat := ![twoMat, fun _ s => if s < 2 then 1 else 0, oneMat]

/-- C9 (refutation): on the concrete rank-inconsistent input `c9F` (a
1 × 1 × 1 all-ones tensor, `factor[0] = [[2]]` so rank 1, `factor[1]` a
1 × 2 matrix), `BGCP` hands the sweep loop exactly the raw, unvalidated
inputs (the state before sweep 1 is the provided factor list with tau = 1
and zero accumulators), and the sweep's first call — the mode-0
hyperparameter draw `sample_hyperparameter (factor[0], ...)`, which reads
only the internally well-formed `factor[0]` and therefore completes
identically in the real program regardless of `factor[1]` — evaluates to
the concrete drawn pair mu = 1, Lambda = 1/3.  So a hyperparameter draw
occurs with no validation error reported first, contradicting the claim;
the inconsistency can surface only afterwards, as a shape error raised by
an array operation inside the subsequent `sample_factor` call (already
its first operation, the Khatri-Rao einsum of `factor[2]` and
`factor[1]`, has mismatched column counts 1 and 2), before any
factor-row draw. -/
theorem c9_hyper_draw_runs_unvalidated :
    bgcpGo 1 1 1 1 oneTen c9F 1 (fun _ => idDraws) 0 =
      ⟨c9F, 1, fun _ => 0, 0⟩ ∧
    (sample_hyperparameter (dimOf 1 1 1 0) 1 (c9F 0) zeroVec 1 (eyeQ 1) 1
      idDraws).1 0 = 1 ∧
    (sample_hyperparameter (dimOf 1 1 1 0) 1 (c9F 0) zeroVec 1 (eyeQ 1) 1
      idDraws).2 0 0 = 1 / 3 := by
  have hd : dimOf 1 1 1 0 = 1 := rfl
  have hc : c9F 0 = twoMat := rfl
  refine ⟨rfl, ?_, ?_⟩
  · rw [hd, hc]
    unfold sample_hyperparameter
    simp only [idDraws, Finset.sum_range_one]
    norm_num [twoMat, zeroVec]
  · rw [hd, hc]
    unfold sample_hyperparameter
    simp only [idDraws, Finset.sum_range_one]
    rw [matInv_one]
    rw [matInv_one]
    norm_num [twoMat, zeroVec, eyeQ, cov_mat, Finset.sum_range_one]

/-- C9 (amended, provable half): `BGCP` performs no eager configuration
validation: for every input, consistent or not, the state handed to the
first sweep is exactly the raw, unvalidated inputs (the provided factor
list, tau = 1, zero accumulators), and the first sweep run on them is the
sequential sweep `sweepSpec`, whose first operation is the mode-0
hyperparameter draw taken from the provided `factor[0]` alone.  No
validation step or error report precedes the sweep loop. -/
theorem c9_no_validation_before_first_sweep (m n f r : ℕ) (sparse : Ten)
    (Finit : Fin 3 → Mat) (burn : ℕ) (D : ℕ → Draws) :
    bgcpGo m n f r sparse Finit burn D 0 = ⟨Finit, 1, fun _ => 0, 0⟩ ∧
    bgcpSweep m n f r sparse (binaryOf m n f sparse) (posTrain m n f sparse)
        (D 0) Finit 1 =
      sweepSpec m n f r sparse (binaryOf m n f sparse) (posTrain m n f sparse)
        (D 0) Finit 1 :=
  ⟨rfl, bgcpSweep_eq_sweepSpec m n f r sparse (binaryOf m n f sparse)
    (posTrain m n f sparse) (D 0) Finit 1⟩
